import Mathlib

/-!
Shallow embedding of `src/image.py` (Clifford attractor renderer core).

The numerical engine consists of:
* `clifford_step` / `clifford_step_batch` — one iteration of the Clifford map
  (lines 21-22), applied element-wise over the batch of states;
* `clifford_fast` — the trajectory sampler loop (lines 19-31), which appends
  each post-update batch to the accumulated record;
* `linspace` / `a_values` — the parameter-sweep schedule
  `t = np.linspace(0, 6*pi, total_frames); a_values = -1.4 + 0.8*np.sin(t)`
  (lines 45-46);
* `binIdx` / `histogram2d` — the `np.histogram2d(..., bins, range)` density
  binning (lines 75-76), exact-real semantics of equal-width bins with the
  final bin closed;
* `log1p` / `compressGrid` — the `np.log1p` field compression (line 79);
* `npUniform` / `seed_batch` — the seeding `np.random.uniform(-0.5, 0.5, n)`
  (lines 12-13), modelled by inverse transform of a unit uniform outcome.

Machine floats are modelled by exact reals; the batch of states is a list of
pairs (the paired x/y numpy arrays).
-/

namespace CliffordImage

noncomputable section

/-- One Clifford map step (src lines 21-22):
`x' = sin(a*y) + c*cos(a*x)`, `y' = sin(b*x) + d*cos(b*y)`. -/
def clifford_step (a b c d : ℝ) (p : ℝ × ℝ) : ℝ × ℝ :=
  (Real.sin (a * p.2) + c * Real.cos (a * p.1),
   Real.sin (b * p.1) + d * Real.cos (b * p.2))

/-- The vectorised update `x_new = np.sin(a*y) + c*np.cos(a*x)`,
`y_new = np.sin(b*x) + d*np.cos(b*y)`: the step applied element-wise over the
batch. -/
def clifford_step_batch (a b c d : ℝ) (xy : List (ℝ × ℝ)) : List (ℝ × ℝ) :=
  xy.map (clifford_step a b c d)

/-- The sampling loop of `clifford_fast` (src lines 19-29): starting from the
current batch, repeat `n` times: update the batch, append it to the record. -/
def clifford_record (a b c d : ℝ) : List (ℝ × ℝ) → ℕ → List (ℝ × ℝ)
  | _, 0 => []
  | xy, Nat.succ n =>
      clifford_step_batch a b c d xy ++
        clifford_record a b c d (clifford_step_batch a b c d xy) n

/-- The sampler `clifford_fast(n_points, a, b, c, d, n_iter)` (src lines 8-31),
with the randomly drawn seed batch made explicit as the `seeds` argument
(`n_points = seeds.length`): returns the full trajectory record. -/
def clifford_fast (a b c d : ℝ) (seeds : List (ℝ × ℝ)) (n_iter : ℕ) :
    List (ℝ × ℝ) :=
  clifford_record a b c d seeds n_iter

/-- Semantics of `np.linspace(start, stop, num)`: `num` evenly spaced samples, endpoint
inclusive, i.e. entry `i` is `start + (stop - start) * i / (num - 1)` for
`num ≥ 2`, `[start]` for `num = 1`, `[]` for `num = 0`. -/
def linspace (start stop : ℝ) (num : ℕ) : List ℝ :=
  if num = 1 then [start]
  else (List.range num).map
    (fun i : ℕ => start + (stop - start) * (i : ℝ) / ((num : ℝ) - 1))

/-- The sweep schedule of `create_fast_clifford_video` (src lines 45-46):
`t = np.linspace(0, 6*np.pi, total_frames)`;
`a_values = -1.4 + 0.8 * np.sin(t)`. -/
def a_values (total_frames : ℕ) : List ℝ :=
  (linspace 0 (6 * Real.pi) total_frames).map (fun t => -1.4 + 0.8 * Real.sin t)

/-- Closed form of the schedule entry at frame index `i`: a pure function of
`(total_frames, i)` alone. -/
def a_sched_entry (total_frames i : ℕ) : ℝ :=
  -1.4 + 0.8 * Real.sin
    (if total_frames = 1 then 0
     else 6 * Real.pi * i / ((total_frames : ℝ) - 1))

/-- Semantics of `np.log1p`: the field compression `log(1 + v)` applied to one cell. -/
def log1p (v : ℝ) : ℝ := Real.log (1 + v)

/-- The Field Compressor (src line 79): `np.log1p(hist)`, element-wise over the
density grid (a grid is the map from cell indices to counts). -/
def compressGrid (h : ℕ → ℕ → ℕ) : ℕ → ℕ → ℝ :=
  fun i j => log1p (h i j)

/-- Bin index of value `v` for `bins` equal-width bins over `[lo, hi]`, the
exact-real semantics of one axis of `np.histogram2d` with an explicit range:
out-of-range values get no bin (dropped), in-range values get
`⌊(v - lo) * bins / (hi - lo)⌋`, except that `v = hi` falls in the last bin
(the final bin is closed on both ends). -/
def binIdx (lo hi : ℝ) (bins : ℕ) (v : ℝ) : Option ℕ :=
  if lo ≤ v ∧ v ≤ hi then
    if v = hi then some (bins - 1)
    else some (Int.toNat ⌊(v - lo) * bins / (hi - lo)⌋)
  else none

/-- Whether a recorded point lies inside the binning range
`[[xlo, xhi], [ylo, yhi]]`. -/
def inRange (xlo xhi ylo yhi : ℝ) (p : ℝ × ℝ) : Prop :=
  (xlo ≤ p.1 ∧ p.1 ≤ xhi) ∧ (ylo ≤ p.2 ∧ p.2 ≤ yhi)

instance instDecidableInRange (xlo xhi ylo yhi : ℝ) (p : ℝ × ℝ) :
    Decidable (inRange xlo xhi ylo yhi p) :=
  inferInstanceAs (Decidable ((xlo ≤ p.1 ∧ p.1 ≤ xhi) ∧ (ylo ≤ p.2 ∧ p.2 ≤ yhi)))

/-- The Density Histogrammer
`np.histogram2d(x_points, y_points, bins=bins, range=[[xlo,xhi],[ylo,yhi]])`
(src lines 75-76): cell `(i, j)` counts the recorded points whose x-bin is `i`
and whose y-bin is `j`. -/
def histogram2d (pts : List (ℝ × ℝ)) (bins : ℕ) (xlo xhi ylo yhi : ℝ) :
    ℕ → ℕ → ℕ :=
  fun i j =>
    pts.countP (fun p =>
      decide (binIdx xlo xhi bins p.1 = some i ∧ binIdx ylo yhi bins p.2 = some j))

/-- Total count of a `bins × bins` density grid. -/
def histSum (h : ℕ → ℕ → ℕ) (bins : ℕ) : ℕ :=
  ∑ i ∈ Finset.range bins, ∑ j ∈ Finset.range bins, h i j

/-- Semantics of `np.random.uniform(low, high)` by inverse transform: the drawn value is
`low + (high - low) * u` where `u` is an outcome of the unit uniform on
`[0, 1)`. -/
def npUniform (low high u : ℝ) : ℝ := low + (high - low) * u

/-- The seed batch of `clifford_fast` (src lines 12-13):
`x = np.random.uniform(-0.5, 0.5, n_points)`,
`y = np.random.uniform(-0.5, 0.5, n_points)`, with the underlying unit-uniform
outcomes made explicit as the lists `us`, `vs`. -/
def seed_batch (us vs : List ℝ) : List (ℝ × ℝ) :=
  (us.zip vs).map (fun q => (npUniform (-0.5) 0.5 q.1, npUniform (-0.5) 0.5 q.2))

/- Helper lemmas about the sampler. -/

theorem clifford_step_batch_length (a b c d : ℝ) (xy : List (ℝ × ℝ)) :
    (clifford_step_batch a b c d xy).length = xy.length :=
  List.length_map _ _

theorem clifford_record_length (a b c d : ℝ) (xy : List (ℝ × ℝ)) (n : ℕ) :
    (clifford_record a b c d xy n).length = xy.length * n := by
  induction n generalizing xy with
  | zero => simp [clifford_record]
  | succ n ih =>
      simp only [clifford_record, List.length_append, ih,
        clifford_step_batch_length, Nat.mul_succ]
      ring

theorem clifford_record_nil (a b c d : ℝ) (n : ℕ) :
    clifford_record a b c d [] n = [] := by
  induction n with
  | zero => rfl
  | succ n ih => simp [clifford_record, clifford_step_batch, ih]

theorem clifford_record_getElem (a b c d : ℝ) (xy : List (ℝ × ℝ)) (n i j : ℕ)
    (hi : i < n) (hj : j < xy.length) :
    (clifford_record a b c d xy n)[i * xy.length + j]? =
      some ((clifford_step a b c d)^[i + 1] (xy.get ⟨j, hj⟩)) := by
  induction i generalizing xy n with
  | zero =>
      obtain ⟨m, rfl⟩ : ∃ m, n = m + 1 := ⟨n - 1, (Nat.succ_pred_eq_of_pos hi).symm⟩
      have hjlen : 0 * xy.length + j < (clifford_step_batch a b c d xy).length := by
        simpa [clifford_step_batch_length] using hj
      rw [clifford_record, List.getElem?_append_left hjlen]
      simp [clifford_step_batch, List.getElem?_map, List.getElem?_eq_getElem hj,
        Function.iterate_one]
  | succ i ih =>
      obtain ⟨m, rfl⟩ : ∃ m, n = m + 1 :=
        ⟨n - 1, (Nat.succ_pred_eq_of_pos (Nat.lt_of_le_of_lt (Nat.zero_le _) hi)).symm⟩
      have hm : i < m := Nat.lt_of_succ_lt_succ hi
      have hj' : j < (clifford_step_batch a b c d xy).length := by
        simpa [clifford_step_batch_length] using hj
      have hidx : (i + 1) * xy.length + j =
          (clifford_step_batch a b c d xy).length + (i * xy.length + j) := by
        simp [clifford_step_batch_length, Nat.succ_mul]
        ring
      rw [clifford_record, hidx, List.getElem?_append_right (Nat.le_add_right _ _),
        Nat.add_sub_cancel_left]
      have := ih (clifford_step_batch a b c d xy) m hm
        (by simpa [clifford_step_batch_length] using hj)
      simp only [clifford_step_batch_length] at this
      rw [this]
      congr 1
      have hget : (clifford_step_batch a b c d xy).get
          ⟨j, by simpa [clifford_step_batch_length] using hj⟩ =
            clifford_step a b c d (xy.get ⟨j, hj⟩) := by
        simp [clifford_step_batch]
      rw [hget, ← Function.iterate_succ_apply]

theorem clifford_record_mem (a b c d : ℝ) (xy : List (ℝ × ℝ)) (n : ℕ) :
    ∀ p ∈ clifford_record a b c d xy n, ∃ q, p = clifford_step a b c d q := by
  induction n generalizing xy with
  | zero => simp [clifford_record]
  | succ n ih =>
      intro p hp
      rw [clifford_record, List.mem_append] at hp
      rcases hp with hp | hp
      · rcases List.mem_map.mp hp with ⟨q, _, rfl⟩
        exact ⟨q, rfl⟩
      · exact ih _ p hp

theorem clifford_step_abs_fst (a c x y : ℝ) :
    |Real.sin (a * y) + c * Real.cos (a * x)| ≤ 1 + |c| := by
  calc |Real.sin (a * y) + c * Real.cos (a * x)|
      ≤ |Real.sin (a * y)| + |c * Real.cos (a * x)| := abs_add _ _
    _ = |Real.sin (a * y)| + |c| * |Real.cos (a * x)| := by rw [abs_mul]
    _ ≤ 1 + |c| * 1 := add_le_add (Real.abs_sin_le_one _)
        (mul_le_mul_of_nonneg_left (Real.abs_cos_le_one _) (abs_nonneg c))
    _ = 1 + |c| := by ring

/-- C1: one step of the Clifford Map Evaluator returns exactly
`x' = sin(a*y) + c*cos(a*x)` and `y' = sin(b*x) + d*cos(b*y)`, applied
element-wise over the batch, preserving batch length and ordering. -/
theorem clifford_step_batch_elementwise (a b c d : ℝ) (xy : List (ℝ × ℝ)) :
    (clifford_step_batch a b c d xy).length = xy.length ∧
    ∀ j (hj : j < xy.length),
      (clifford_step_batch a b c d xy)[j]? =
        some (Real.sin (a * (xy.get ⟨j, hj⟩).2) + c * Real.cos (a * (xy.get ⟨j, hj⟩).1),
              Real.sin (b * (xy.get ⟨j, hj⟩).1) + d * Real.cos (b * (xy.get ⟨j, hj⟩).2)) := by
  refine ⟨clifford_step_batch_length a b c d xy, ?_⟩
  intro j hj
  simp [clifford_step_batch, List.getElem?_map, List.getElem?_eq_getElem hj,
    clifford_step]

/-- Witness for C1 at the concrete batch `[(5, 6)]`, parameters
`a=1, b=2, c=3, d=4`. -/
theorem clifford_step_batch_elementwise_witness :
    (clifford_step_batch 1 2 3 4 [((5:ℝ), (6:ℝ))]).length = 1 ∧
    (clifford_step_batch 1 2 3 4 [((5:ℝ), (6:ℝ))])[0]? =
      some (Real.sin (1 * 6) + 3 * Real.cos (1 * 5),
            Real.sin (2 * 5) + 4 * Real.cos (2 * 6)) := by
  refine ⟨(clifford_step_batch_elementwise 1 2 3 4 [((5:ℝ), (6:ℝ))]).1, ?_⟩
  simpa using
    (clifford_step_batch_elementwise 1 2 3 4 [((5:ℝ), (6:ℝ))]).2 0 (by norm_num)

/-- C2: the TrajectoryRecord returned by the Trajectory Sampler has length
exactly `n_points * n_iter` (stated for every seed batch and every iteration
count, which covers the claimed `n_points ≥ 1`, `n_iter ≥ 1`; the x and y
arrays are modelled as one paired list). -/
theorem clifford_fast_length (a b c d : ℝ) (seeds : List (ℝ × ℝ)) (n_iter : ℕ) :
    (clifford_fast a b c d seeds n_iter).length = seeds.length * n_iter :=
  clifford_record_length a b c d seeds n_iter

/-- C3: the TrajectoryRecord is the concatenation of the post-update batches in
iteration order: position `i * n_points + j` holds the `j`-th seed's state after
`i + 1` applications of the map (iteration 0's outputs first), so every
recorded entry is a post-update state and the initial seeds themselves are
never recorded. -/
theorem clifford_fast_record_order (a b c d : ℝ) (seeds : List (ℝ × ℝ))
    (n_iter i j : ℕ) (hi : i < n_iter) (hj : j < seeds.length) :
    (clifford_fast a b c d seeds n_iter)[i * seeds.length + j]? =
      some ((clifford_step a b c d)^[i + 1] (seeds.get ⟨j, hj⟩)) :=
  clifford_record_getElem a b c d seeds n_iter i j hi hj

/-- Witness for C3 at one seed `(0, 0)`, all-zero parameters, one iteration. -/
theorem clifford_fast_record_order_witness :
    (clifford_fast 0 0 0 0 [((0:ℝ), (0:ℝ))] 1)[0]? =
      some ((clifford_step 0 0 0 0)^[1] ((0:ℝ), (0:ℝ))) := by
  simpa using
    clifford_fast_record_order 0 0 0 0 [((0:ℝ), (0:ℝ))] 1 0 0 (by norm_num) (by norm_num)

/-- C7: the Clifford Map Evaluator's outputs are (finite reals and) bounded:
`|x'| ≤ 1 + |c|` and `|y'| ≤ 1 + |d|`; consequently every point of a Clifford
trajectory record obeys these bounds. -/
theorem clifford_outputs_bounded (a b c d x y : ℝ) (seeds : List (ℝ × ℝ))
    (n_iter : ℕ) :
    |(clifford_step a b c d (x, y)).1| ≤ 1 + |c| ∧
    |(clifford_step a b c d (x, y)).2| ≤ 1 + |d| ∧
    ∀ p ∈ clifford_fast a b c d seeds n_iter, |p.1| ≤ 1 + |c| ∧ |p.2| ≤ 1 + |d| := by
  refine ⟨clifford_step_abs_fst a c x y, clifford_step_abs_fst b d y x, ?_⟩
  intro p hp
  obtain ⟨q, rfl⟩ := clifford_record_mem a b c d seeds n_iter p hp
  exact ⟨clifford_step_abs_fst a c q.1 q.2, clifford_step_abs_fst b d q.2 q.1⟩

/-- Witness for C7 at all-zero parameters, seed `(0, 0)`, one iteration: the
recorded point `(0, 0)` obeys the bounds. -/
theorem clifford_outputs_bounded_witness :
    ((0:ℝ), (0:ℝ)) ∈ clifford_fast 0 0 0 0 [((0:ℝ), (0:ℝ))] 1 ∧
    |(clifford_step 0 0 0 0 ((0:ℝ), (0:ℝ))).1| ≤ 1 + |(0:ℝ)| ∧
    |((0:ℝ), (0:ℝ)).1| ≤ 1 + |(0:ℝ)| ∧ |((0:ℝ), (0:ℝ)).2| ≤ 1 + |(0:ℝ)| := by
  have hstep : clifford_step 0 0 0 0 ((0:ℝ), (0:ℝ)) = ((0:ℝ), (0:ℝ)) := by
    simp [clifford_step]
  have hlist : clifford_fast 0 0 0 0 [((0:ℝ), (0:ℝ))] 1 =
      [clifford_step 0 0 0 0 ((0:ℝ), (0:ℝ))] := rfl
  have hmem : ((0:ℝ), (0:ℝ)) ∈ clifford_fast 0 0 0 0 [((0:ℝ), (0:ℝ))] 1 := by
    rw [hlist, hstep]
    exact List.mem_singleton_self _
  exact ⟨hmem, (clifford_outputs_bounded 0 0 0 0 0 0 [((0:ℝ), (0:ℝ))] 1).1,
    (clifford_outputs_bounded 0 0 0 0 0 0 [((0:ℝ), (0:ℝ))] 1).2.2 ((0:ℝ), (0:ℝ)) hmem⟩

/-- C8: evaluation at the failing input — the code performs no configuration
validation: with an invalid configuration (`n_points = 0`, i.e. an empty seed
batch) the sampler runs to completion and returns an empty record instead of
rejecting the configuration with an error (using the script's parameters
`a=-1.4, b=1.6, c=1.0, d=0.7, n_iter=100`). -/
theorem clifford_fast_no_config_rejection :
    clifford_fast (-1.4) 1.6 1 0.7 ([] : List (ℝ × ℝ)) 100 = [] :=
  clifford_record_nil (-1.4) 1.6 1 0.7 100

/-- C9: the SweepSchedule is deterministic — every entry is the same pure
function of the frame index alone (`a_sched_entry`), with no dependence on any
random source; hence any two computations of the schedule for the same frame
count are identical. -/
theorem a_values_deterministic (total_frames : ℕ) :
    a_values total_frames =
      (List.range total_frames).map (fun i => a_sched_entry total_frames i) := by
  unfold a_values linspace a_sched_entry
  by_cases hF : total_frames = 1
  · subst hF
    simp [List.range_succ]
  · rw [if_neg hF, List.map_map]
    have hfun : ((fun t => -1.4 + 0.8 * Real.sin t) ∘
        fun i : ℕ => 0 + (6 * Real.pi - 0) * i / ((total_frames : ℝ) - 1)) =
        fun i : ℕ => -1.4 + 0.8 * Real.sin
          (if total_frames = 1 then 0
           else 6 * Real.pi * i / ((total_frames : ℝ) - 1)) := by
      funext i
      rw [Function.comp_apply, if_neg hF]
      ring_nf
    rw [hfun]

theorem a_values_getElem_closed_form (total_frames i : ℕ)
    (hF : total_frames ≠ 1) (hi : i < total_frames) :
    (a_values total_frames)[i]? =
      some (-1.4 + 0.8 * Real.sin
        (2 * Real.pi * 3 * i / ((total_frames : ℝ) - 1))) := by
  unfold a_values linspace
  rw [if_neg hF, List.map_map, List.getElem?_map, List.getElem?_range hi]
  have harg : (0:ℝ) + (6 * Real.pi - 0) * (i : ℝ) / ((total_frames : ℝ) - 1) =
      2 * Real.pi * 3 * i / ((total_frames : ℝ) - 1) := by ring
  simp only [Option.map_some', Function.comp_apply, harg]

/-- C4 counterexample: at frame count `F = 4` and frame index `i = 1` the
code's schedule value is `-1.4 + 0.8*sin(6π/(F-1)) = -1.4 + 0.8*sin(2π) = -1.4`
(`np.linspace` is endpoint-inclusive, so the phase divides by `F - 1`), while
the claimed formula `base + amplitude*sin(2π * 3 * i / F)` gives
`-1.4 + 0.8*sin(3π/2) = -2.2`; the two differ. -/
theorem a_values_claim_counterexample :
    (a_values 4)[1]? = some ((-1.4 : ℝ)) ∧
    -1.4 + 0.8 * Real.sin (2 * Real.pi * 3 * 1 / (4:ℝ)) = -2.2 ∧
    (a_values 4)[1]? ≠ some (-1.4 + 0.8 * Real.sin (2 * Real.pi * 3 * 1 / (4:ℝ))) := by
  have h1 : (a_values 4)[1]? = some ((-1.4 : ℝ)) := by
    rw [a_values_getElem_closed_form 4 1 (by norm_num) (by norm_num)]
    have harg : 2 * Real.pi * 3 * ((1:ℕ) : ℝ) / (((4:ℕ) : ℝ) - 1) = 2 * Real.pi := by
      push_cast
      ring
    rw [harg, Real.sin_two_pi]
    norm_num
  have h2 : -1.4 + 0.8 * Real.sin (2 * Real.pi * 3 * 1 / (4:ℝ)) = -2.2 := by
    have harg : 2 * Real.pi * 3 * 1 / (4:ℝ) = Real.pi + Real.pi / 2 := by ring
    rw [harg, Real.sin_add_pi_div_two, Real.cos_pi]
    norm_num
  refine ⟨h1, h2, ?_⟩
  rw [h1, h2]
  intro hcontra
  have := Option.some_injective _ hcontra
  norm_num at this

/-- C4 amended: for frame counts `F ≥ 2`, the schedule satisfies
`varying_param[i] = base + amplitude * sin(2π * frequency_cycles * i / (F - 1))`
(base `-1.4`, amplitude `0.8`, 3 cycles — the linspace phase is
endpoint-inclusive, dividing by `F - 1` rather than `F`); in particular
`schedule[0]` equals the base value `-1.4`. The other map parameters `b, c, d`
are fixed constants in the source, held at their base values. -/
theorem a_values_amended (total_frames i : ℕ) (hF : 2 ≤ total_frames)
    (hi : i < total_frames) :
    (a_values total_frames)[i]? =
      some (-1.4 + 0.8 * Real.sin
        (2 * Real.pi * 3 * i / ((total_frames : ℝ) - 1))) ∧
    (a_values total_frames)[0]? = some ((-1.4 : ℝ)) := by
  have hF1 : total_frames ≠ 1 := by omega
  refine ⟨a_values_getElem_closed_form total_frames i hF1 hi, ?_⟩
  rw [a_values_getElem_closed_form total_frames 0 hF1 (by omega)]
  norm_num

/-- Witness for C4's amended claim at `F = 4`, `i = 1`. -/
theorem a_values_amended_witness :
    (a_values 4)[1]? =
      some (-1.4 + 0.8 * Real.sin (2 * Real.pi * 3 * (1:ℝ) / ((4:ℝ) - 1))) ∧
    (a_values 4)[0]? = some ((-1.4 : ℝ)) := by
  have h := a_values_amended 4 1 (by norm_num) (by norm_num)
  simpa using h

theorem binIdx_some_of_mem (lo hi v : ℝ) (bins : ℕ) (hb : 0 < bins)
    (h1 : lo ≤ v) (h2 : v ≤ hi) :
    ∃ k, k < bins ∧ binIdx lo hi bins v = some k := by
  unfold binIdx
  rw [if_pos ⟨h1, h2⟩]
  by_cases hv : v = hi
  · rw [if_pos hv]
    exact ⟨bins - 1, by omega, rfl⟩
  · rw [if_neg hv]
    have hvlt : v < hi := lt_of_le_of_ne h2 hv
    have hlh : lo < hi := lt_of_le_of_lt h1 hvlt
    refine ⟨_, ?_, rfl⟩
    have hbpos : (0:ℝ) < bins := by exact_mod_cast hb
    have hnum : 0 ≤ (v - lo) * bins / (hi - lo) :=
      div_nonneg (mul_nonneg (sub_nonneg.mpr h1) (le_of_lt hbpos))
        (le_of_lt (sub_pos.mpr hlh))
    have hlt : (v - lo) * (bins : ℝ) / (hi - lo) < bins := by
      rw [div_lt_iff₀ (sub_pos.mpr hlh)]
      nlinarith
    have hfl0 : 0 ≤ ⌊(v - lo) * (bins : ℝ) / (hi - lo)⌋ := Int.floor_nonneg.mpr hnum
    have hflt : ⌊(v - lo) * (bins : ℝ) / (hi - lo)⌋ < (bins : ℤ) := by
      rw [Int.floor_lt]
      push_cast
      exact hlt
    omega

theorem binIdx_none_of_not_mem (lo hi v : ℝ) (bins : ℕ)
    (h : ¬(lo ≤ v ∧ v ≤ hi)) : binIdx lo hi bins v = none :=
  if_neg h

theorem sum_cell_indicator (bins : ℕ) (hb : 0 < bins) (xlo xhi ylo yhi : ℝ)
    (p : ℝ × ℝ) :
    (∑ i ∈ Finset.range bins, ∑ j ∈ Finset.range bins,
      (if binIdx xlo xhi bins p.1 = some i ∧ binIdx ylo yhi bins p.2 = some j
       then 1 else 0)) =
      (if inRange xlo xhi ylo yhi p then 1 else 0) := by
  by_cases hx : xlo ≤ p.1 ∧ p.1 ≤ xhi
  · by_cases hy : ylo ≤ p.2 ∧ p.2 ≤ yhi
    · obtain ⟨ix, hix, hxeq⟩ := binIdx_some_of_mem xlo xhi p.1 bins hb hx.1 hx.2
      obtain ⟨iy, hiy, hyeq⟩ := binIdx_some_of_mem ylo yhi p.2 bins hb hy.1 hy.2
      rw [if_pos (show inRange xlo xhi ylo yhi p from ⟨hx, hy⟩)]
      rw [← Finset.sum_product']
      have hcond : ∀ q : ℕ × ℕ,
          (if binIdx xlo xhi bins p.1 = some q.1 ∧ binIdx ylo yhi bins p.2 = some q.2
           then (1:ℕ) else 0) = if q = (ix, iy) then 1 else 0 := by
        intro q
        rcases q with ⟨i, j⟩
        rw [hxeq, hyeq]
        by_cases h1 : i = ix <;> by_cases h2 : j = iy <;>
          simp [h1, h2, Prod.ext_iff, eq_comm]
      rw [Finset.sum_congr rfl (fun q _ => hcond q)]
      rw [Finset.sum_ite_eq' (Finset.range bins ×ˢ Finset.range bins) (ix, iy)
        (fun _ => (1:ℕ))]
      rw [if_pos (Finset.mem_product.mpr
        ⟨Finset.mem_range.mpr hix, Finset.mem_range.mpr hiy⟩)]
    · have hyeq := binIdx_none_of_not_mem ylo yhi p.2 bins hy
      rw [if_neg (show ¬ inRange xlo xhi ylo yhi p from fun hc => hy hc.2)]
      simp [hyeq]
  · have hxeq := binIdx_none_of_not_mem xlo xhi p.1 bins hx
    rw [if_neg (show ¬ inRange xlo xhi ylo yhi p from fun hc => hx hc.1)]
    simp [hxeq]

theorem histSum_histogram2d (pts : List (ℝ × ℝ)) (bins : ℕ) (hb : 0 < bins)
    (xlo xhi ylo yhi : ℝ) :
    histSum (histogram2d pts bins xlo xhi ylo yhi) bins =
      pts.countP (fun p => decide (inRange xlo xhi ylo yhi p)) := by
  induction pts with
  | nil => simp [histSum, histogram2d]
  | cons p pts ih =>
      have hcons : ∀ i j, histogram2d (p :: pts) bins xlo xhi ylo yhi i j =
          histogram2d pts bins xlo xhi ylo yhi i j +
            (if binIdx xlo xhi bins p.1 = some i ∧ binIdx ylo yhi bins p.2 = some j
             then 1 else 0) := by
        intro i j
        simp [histogram2d, List.countP_cons]
      unfold histSum
      simp only [hcons, Finset.sum_add_distrib]
      rw [sum_cell_indicator bins hb xlo xhi ylo yhi p]
      rw [List.countP_cons]
      have := ih
      unfold histSum at this
      rw [this]
      simp [decide_eq_true_eq]

/-- C6: for every TrajectoryRecord and binning range (with a positive bin
count), the total count of the DensityField produced by the Histogrammer is at
most the record length, with equality iff every recorded point lies within the
range (out-of-range points are dropped, not clamped); the empty record yields
an all-zero grid. -/
theorem histogram2d_total_count (pts : List (ℝ × ℝ)) (bins : ℕ)
    (xlo xhi ylo yhi : ℝ) (hb : 0 < bins) :
    histSum (histogram2d pts bins xlo xhi ylo yhi) bins ≤ pts.length ∧
    (histSum (histogram2d pts bins xlo xhi ylo yhi) bins = pts.length ↔
      ∀ p ∈ pts, inRange xlo xhi ylo yhi p) ∧
    (∀ i j, histogram2d [] bins xlo xhi ylo yhi i j = 0) := by
  have hcount := histSum_histogram2d pts bins hb xlo xhi ylo yhi
  refine ⟨?_, ?_, ?_⟩
  · rw [hcount]
    exact List.countP_le_length _
  · rw [hcount, List.countP_eq_length]
    simp [decide_eq_true_eq]
  · intro i j
    simp [histogram2d]

/-- Witness for C6 at the empty record, one bin, range `[-3,3] × [-3,3]`. -/
theorem histogram2d_total_count_witness :
    histSum (histogram2d [] 1 (-3) 3 (-3) 3) 1 ≤ ([] : List (ℝ × ℝ)).length ∧
    (histSum (histogram2d [] 1 (-3) 3 (-3) 3) 1 = ([] : List (ℝ × ℝ)).length ↔
      ∀ p ∈ ([] : List (ℝ × ℝ)), inRange (-3) 3 (-3) 3 p) ∧
    (∀ i j, histogram2d [] 1 (-3) 3 (-3) 3 i j = 0) :=
  histogram2d_total_count [] 1 (-3) 3 (-3) 3 (by norm_num)

/-- C5: the Field Compressor applies `log(1 + count)` to every cell: it maps 0
to 0 and is strictly increasing on counts, an all-zero DensityField compresses
to an all-zero CompressedField, and a field with a single cell of count `k`
compresses to `log(1+k)` in that cell and 0 elsewhere. -/
theorem compressGrid_log1p_spec :
    log1p 0 = 0 ∧
    (∀ u v : ℝ, 0 ≤ u → u < v → log1p u < log1p v) ∧
    (∀ h : ℕ → ℕ → ℕ, (∀ i j, h i j = 0) → ∀ i j, compressGrid h i j = 0) ∧
    (∀ (k i0 j0 i j : ℕ),
      compressGrid (fun x y => if x = i0 ∧ y = j0 then k else 0) i j =
        if i = i0 ∧ j = j0 then log1p k else 0) := by
  refine ⟨by simp [log1p], ?_, ?_, ?_⟩
  · intro u v hu huv
    exact Real.log_lt_log (by linarith) (by linarith)
  · intro h hz i j
    simp [compressGrid, hz i j, log1p]
  · intro k i0 j0 i j
    by_cases hc : i = i0 ∧ j = j0
    · simp [compressGrid, hc]
    · simp [compressGrid, hc, log1p]

/-- Witness for C5: `log1p` is strictly increasing at `0 < 1`, and the all-zero
grid compresses to 0 at cell `(0, 0)`. -/
theorem compressGrid_log1p_spec_witness :
    log1p 0 < log1p 1 ∧ compressGrid (fun _ _ => 0) 0 0 = 0 :=
  ⟨compressGrid_log1p_spec.2.1 0 1 le_rfl one_pos,
   compressGrid_log1p_spec.2.2.1 (fun _ _ => 0) (fun _ _ => rfl) 0 0⟩

/-- C10: every initial seed of the Clifford SeedBatch lies in the square
`[-0.5, 0.5] × [-0.5, 0.5]`, for every outcome of the underlying unit-uniform
draws (which lie in `[0, 1)`). -/
theorem seed_batch_in_square (us vs : List ℝ)
    (hu : ∀ u ∈ us, 0 ≤ u ∧ u < 1) (hv : ∀ v ∈ vs, 0 ≤ v ∧ v < 1) :
    ∀ p ∈ seed_batch us vs,
      -0.5 ≤ p.1 ∧ p.1 ≤ 0.5 ∧ -0.5 ≤ p.2 ∧ p.2 ≤ 0.5 := by
  intro p hp
  simp only [seed_batch, List.mem_map] at hp
  obtain ⟨⟨u, v⟩, hq, rfl⟩ := hp
  obtain ⟨hu1, hu2⟩ := hu u (List.of_mem_zip hq).1
  obtain ⟨hv1, hv2⟩ := hv v (List.of_mem_zip hq).2
  simp only [npUniform]
  refine ⟨by nlinarith, by nlinarith, by nlinarith, by nlinarith⟩

/-- Witness for C10: unit-uniform outcome `1/2` on each axis yields the seed
`(0, 0)`, inside the square. -/
theorem seed_batch_in_square_witness :
    ((0:ℝ), (0:ℝ)) ∈ seed_batch [(0.5:ℝ)] [(0.5:ℝ)] ∧
    (-0.5 ≤ (0:ℝ) ∧ (0:ℝ) ≤ 0.5 ∧ -0.5 ≤ (0:ℝ) ∧ (0:ℝ) ≤ 0.5) := by
  have hlist : seed_batch [(0.5:ℝ)] [(0.5:ℝ)] = [((0:ℝ), (0:ℝ))] := by
    simp only [seed_batch, List.zip_cons_cons, List.zip_nil_right, List.map]
    norm_num [npUniform]
  have hmem : ((0:ℝ), (0:ℝ)) ∈ seed_batch [(0.5:ℝ)] [(0.5:ℝ)] := by
    rw [hlist]; exact List.mem_singleton_self _
  refine ⟨hmem, seed_batch_in_square [(0.5:ℝ)] [(0.5:ℝ)] ?_ ?_ ((0:ℝ), (0:ℝ)) hmem⟩
  · intro u hu
    rw [List.mem_singleton] at hu
    subst hu
    norm_num
  · intro v hv
    rw [List.mem_singleton] at hv
    subst hv
    norm_num

end

end CliffordImage
